import Mathlib

set_option maxHeartbeats 1000000

/-!
Shallow embedding of the pixfont repository core: the glyph packer
(`packFont` from cmd/fontgen/fontgen.go) and the renderer (`PixFont` with
`DrawRune` / `DrawString` / `MeasureRune` / `MeasureString` /
`SetVariableWidth` from the library package).

Go machine integers are modelled as `Nat` with explicit `% 2 ^ 32`
(uint32) and `% 2 ^ 16` (uint16) where the source truncates.  Go maps are
modelled as association lists (`List (Nat × Nat)` for `map[rune]uint16`,
`List (Nat × GlyphMatrix)` for `map[rune]map[int]string`), the inner
sparse row map as a function `Nat → Option (List Char)`.  The drawing
surface (`Drawable`) is modelled by the trace of `Set(x, y, clr)` calls.
Pointer-receiver methods return the receiver: a method that never assigns
to a field returns it unchanged.
-/

/-- A glyph input matrix, Go `map[int]string`: row index to row text. -/
def GlyphMatrix : Type := Nat → Option (List Char)

/-- Source ink test on a row string: `len(ld) > x && ld[x] == 'X'`. -/
def inkAt (ld : List Char) (x : Nat) : Bool :=
  decide (ld.length > x) && decide (ld.getD x ' ' = 'X')

/-- Ink of a glyph matrix at row `y`, column `x`; absent rows are blank. -/
def glyphInk (m : GlyphMatrix) (y x : Nat) : Bool :=
  match m y with
  | some ld => inkAt ld x
  | none => false

/-- Column loop of `packFont`:
`for x := 0; x < w; x++ { if len(ld) > x && ld[x] == 'X' { line |= b }; b <<= 1 }`
with `n` the remaining iteration count and `b` the running uint32 mask. -/
def packRowLoop (ld : List Char) : Nat → Nat → Nat → Nat → Nat
  | 0, _, line, _ => line
  | n + 1, x, line, b =>
    packRowLoop ld n (x + 1) (if inkAt ld x then line ||| b else line) (b * 2 % 2 ^ 32)

/-- Row loop of `packFont`: for each row `y` read `line := encoded[i32+y]`,
or in the row bits of the glyph at byte lane `dist` (mask starting at
`1 << (8*dist)`) when the matrix has the row, and write the word back.
`n` is the remaining row count. -/
def packGlyphRows (w dist : Nat) (m : GlyphMatrix) (i32 : Nat) : Nat → Nat → List Nat → List Nat
  | _, 0, enc => enc
  | y, n + 1, enc =>
    let line := enc.getD (i32 + y) 0
    let line2 :=
      match m y with
      | some ld => packRowLoop ld w 0 line (1 <<< (8 * dist) % 2 ^ 32)
      | none => line
    packGlyphRows w dist m i32 (y + 1) n (enc.set (i32 + y) line2)

/-- Go map read `d[rune(c)]`; a missing key gives the nil map (no rows). -/
def matrixOf (d : List (Nat × GlyphMatrix)) (c : Nat) : GlyphMatrix :=
  (List.lookup c d).getD (fun _ => none)

/-- Main glyph loop of `packFont` over the sorted character codes.
State is `(encoded, charmap so far, i8)`; for each code:
`i32 := (i8 >> 2) * h`, `dist := i8 & 0b11`,
`cm[c] = uint16((i32 << 2) | dist)`, pack the rows, `i8 += spacing`. -/
def packLoop (w h spacing : Nat) (d : List (Nat × GlyphMatrix)) :
    List Nat → List Nat × List (Nat × Nat) × Nat → List Nat × List (Nat × Nat) × Nat
  | [], st => st
  | c :: cs, (enc, cm, i8) =>
    let i32 := (i8 >>> 2) * h
    let dist := i8 &&& 3
    packLoop w h spacing d cs
      (packGlyphRows w dist (matrixOf d c) i32 0 h enc,
        cm ++ [(c, (i32 <<< 2 ||| dist) % 2 ^ 16)], i8 + spacing)

/-- `u8PerCh := ((w - 1) >> 3) + 1` : bytes per glyph. -/
def u8PerCh (w : Nat) : Nat := (w - 1) >>> 3 + 1

/-- `chPerU32 := 4 / u8PerCh` : glyphs per uint32. -/
def chPerU32 (w : Nat) : Nat := 4 / u8PerCh w

/-- `spacing := 4 / chPerU32` : byte lanes skipped between glyph starts. -/
def laneStride (w : Nat) : Nat := 4 / chPerU32 w

/-- Go `packFont(w, h, d)` from cmd/fontgen/fontgen.go: sort the character
codes ascending, allocate `ceil(len(d)/chPerU32) * h` zero words, and pack
each glyph into its byte lane, returning `(encoded, charmap)`. -/
def packFont (w h : Nat) (d : List (Nat × GlyphMatrix)) : List Nat × List (Nat × Nat) :=
  let chs := List.insertionSort (· ≤ ·) (d.map Prod.fst)
  let costPerLine := (d.length + chPerU32 w - 1) / chPerU32 w
  let costTotal := h * costPerLine
  let res := packLoop w h (laneStride w) d chs (List.replicate costTotal 0, [], 0)
  (res.1, res.2.1)

/-- Package-level `var Spacing = 1` (default value). -/
def Spacing : Nat := 1

/-- The `PixFont` struct. -/
structure PixFont where
  charWidth : Nat
  charHeight : Nat
  charmap : List (Nat × Nat)
  data : List Nat
  varCharWidth : Nat
deriving DecidableEq

/-- `NewPixFont(w, h, cm, d)` returns `&PixFont{w, h, cm, d, w}`. -/
def newPixFont (w h : Nat) (cm : List (Nat × Nat)) (d : List Nat) : PixFont :=
  ⟨w, h, cm, d, w⟩

/-- `SetVariableWidth(isVar)`: fixed mode sets `varCharWidth = charWidth`;
variable mode sets `varCharWidth = charWidth / 3`, at least 3. -/
def setVariableWidth (p : PixFont) (isVar : Bool) : PixFont :=
  if !isVar then { p with varCharWidth := p.charWidth }
  else
    let v := p.charWidth / 3
    { p with varCharWidth := if v < 3 then 3 else v }

/-- Column loop of `DrawRune` for one row word:
`if (d[yy] & bitMask) != 0 { dr.Set(x+xx, y+yy, clr); if xx >= w { w = xx + Spacing } }`,
`bitMask <<= 1`.  Arguments: remaining count, `xx`, `w`, `bitMask`,
accumulated `Set` trace.  Returns the updated `(w, trace)`. -/
def drawCols (word : Nat) (x y : Int) (yy : Nat) (clr : Nat) :
    Nat → Nat → Nat → Nat → List (Int × Int × Nat) → Nat × List (Int × Int × Nat)
  | 0, _, w, _, acc => (w, acc)
  | n + 1, xx, w, bitMask, acc =>
    drawCols word x y yy clr n (xx + 1)
      (if word &&& bitMask ≠ 0 ∧ xx ≥ w then xx + Spacing else w)
      (bitMask * 2 % 2 ^ 32)
      (if word &&& bitMask ≠ 0 then acc ++ [(x + (xx : Int), y + (yy : Int), clr)] else acc)

/-- Row loop of `DrawRune`: each row restarts `bitMask` at `1 << psub` and
scans the full width from column 0. -/
def drawRows (dd : List Nat) (psub : Nat) (x y : Int) (clr : Nat) (W : Nat) :
    Nat → Nat → Nat → List (Int × Int × Nat) → Nat × List (Int × Int × Nat)
  | 0, _, w, acc => (w, acc)
  | n + 1, yy, w, acc =>
    let r := drawCols (dd.getD yy 0) x y yy clr W 0 w (1 <<< psub % 2 ^ 32) acc
    drawRows dd psub x y clr W n (yy + 1) r.1 r.2

/-- `DrawRune(dr, x, y, c, clr)`: result is
`(receiver, found, advance, Set trace)`. -/
def drawRune (p : PixFont) (x y : Int) (c : Nat) (clr : Nat) :
    PixFont × Bool × Nat × List (Int × Int × Nat) :=
  match List.lookup c p.charmap with
  | none => (p, false, p.varCharWidth, [])
  | some poff =>
    let w := if p.varCharWidth ≠ p.charWidth then 0 else p.charWidth
    let pindex := poff >>> 2
    let psub := (poff &&& 3) * 8
    let dd := (p.data.drop pindex).take p.charHeight
    let r := drawRows dd psub x y clr p.charWidth p.charHeight 0 w []
    (p, true, r.1, r.2)

/-- `DrawString(dr, x, y, s, clr)`: draw each rune, advancing
`x += w + Spacing`; returns `(receiver, final x, Set trace)`. -/
def drawString (p : PixFont) (x y : Int) (s : List Nat) (clr : Nat) :
    PixFont × Int × List (Int × Int × Nat) :=
  match s with
  | [] => (p, x, [])
  | c :: cs =>
    let r := drawRune p x y c clr
    let rest := drawString r.1 (x + ((r.2.2.1 + Spacing : Nat) : Int)) y cs clr
    (rest.1, rest.2.1, r.2.2.2 ++ rest.2.2)

/-- Column loop of `MeasureRune` for one row word:
`for xx := w; xx < W; xx++ { if (d[yy]&bitMask) != 0 && xx >= w { w = xx + Spacing }; bitMask <<= 1 }`.
Arguments: remaining count, `xx`, `w`, `bitMask`. -/
def measureCols (word : Nat) : Nat → Nat → Nat → Nat → Nat
  | 0, _, w, _ => w
  | n + 1, xx, w, bitMask =>
    measureCols word n (xx + 1)
      (if word &&& bitMask ≠ 0 ∧ xx ≥ w then xx + Spacing else w)
      (bitMask * 2 % 2 ^ 32)

/-- Row loop of `MeasureRune`: each row restarts `bitMask` at `1 << psub`
but starts the column counter at the current `w`. -/
def measureRows (dd : List Nat) (psub W : Nat) : Nat → Nat → Nat → Nat
  | 0, _, w => w
  | n + 1, yy, w =>
    measureRows dd psub W n (yy + 1)
      (measureCols (dd.getD yy 0) (W - w) w w (1 <<< psub % 2 ^ 32))

/-- `MeasureRune(c)`: result is `(receiver, found, advance)`. -/
def measureRune (p : PixFont) (c : Nat) : PixFont × Bool × Nat :=
  let look := List.lookup c p.charmap
  if p.varCharWidth = p.charWidth then (p, look.isSome, p.charWidth)
  else
    match look with
    | none => (p, false, p.varCharWidth)
    | some poff =>
      let pindex := poff >>> 2
      let psub := (poff &&& 3) * 8
      let dd := (p.data.drop pindex).take p.charHeight
      (p, true, measureRows dd psub p.charWidth p.charHeight 0 0)

/-- `MeasureString(s)`: sum of `advance + Spacing` over the runes;
result is `(receiver, total)`. -/
def measureString (p : PixFont) (s : List Nat) : PixFont × Nat :=
  match s with
  | [] => (p, 0)
  | c :: cs =>
    let r := measureRune p c
    let rest := measureString r.1 cs
    (rest.1, r.2.2 + Spacing + rest.2)

/-! ## Derived quantities of the packing layout (claim-side descriptions) -/

/-- Glyphs per word as the spec states it: widths 1-8 pack 4 per word,
9-16 pack 2, 17-32 pack 1. -/
def glyphsPerWordSpec (w : Nat) : Nat := if w ≤ 8 then 4 else if w ≤ 16 then 2 else 1

/-- Word index of the first row of the glyph at sorted position `k`. -/
def glyphWord (w h k : Nat) : Nat := k / chPerU32 w * h

/-- Byte lane of the glyph at sorted position `k`. -/
def glyphLane (w k : Nat) : Nat := laneStride w * (k % chPerU32 w)

/-- Charmap offset stored for the glyph at sorted position `k`
(uint16, hence the `% 2 ^ 16`). -/
def glyphOff (w h k : Nat) : Nat := (glyphWord w h k <<< 2 ||| glyphLane w k) % 2 ^ 16

/-- Charmap entries produced for the codes `cs` starting at position `k`. -/
def offsetsFrom (w h : Nat) : List Nat → Nat → List (Nat × Nat)
  | [], _ => []
  | c :: cs, k => (c, glyphOff w h k) :: offsetsFrom w h cs (k + 1)

/-- The (word, bit) region of `data` owned by the glyph at position `k`. -/
def inRegion (w h k i t : Nat) : Prop :=
  glyphWord w h k ≤ i ∧ i < glyphWord w h k + h ∧
  8 * glyphLane w k ≤ t ∧ t < 8 * glyphLane w k + w

instance (w h k i t : Nat) : Decidable (inRegion w h k i t) := by
  unfold inRegion; infer_instance

/-- Decoded pixel of the glyph at charmap offset `poff`, as the renderer
reads it: bit `(poff & 3) * 8 + xx` of row `yy` of the slice
`data[poff >> 2 : poff >> 2 + charHeight]`. -/
def decodedBit (p : PixFont) (poff yy xx : Nat) : Bool :=
  Nat.testBit (((p.data.drop (poff >>> 2)).take p.charHeight).getD yy 0)
    ((poff &&& 3) * 8 + xx)

/-! ## Basic helper lemmas -/

theorem getD_set_ne {l : List Nat} {i j : Nat} (h : i ≠ j) (v : Nat) :
    (l.set i v).getD j 0 = l.getD j 0 := by
  simp [List.getD_eq_getElem?_getD, List.getElem?_set_ne h]

theorem getD_set_self {l : List Nat} {i : Nat} (h : i < l.length) (v : Nat) :
    (l.set i v).getD i 0 = v := by
  simp [List.getD_eq_getElem?_getD, List.getElem?_set_self h]

theorem set_getD_self (l : List Nat) (i : Nat) : l.set i (l.getD i 0) = l := by
  induction l generalizing i with
  | nil => simp
  | cons a l ih =>
    cases i with
    | zero => simp
    | succ i => simpa using ih i

theorem getD_replicate (L i : Nat) : (List.replicate L (0 : Nat)).getD i 0 = 0 := by
  simp [List.getD_eq_getElem?_getD, List.getElem?_replicate]
  split <;> rfl

/-! ## Claim C4: the 7x1 three-glyph fixture -/

def rowA7 : List Char := ['X', 'X', 'X', ' ', ' ', ' ', 'X']
def rowB7 : List Char := ['X', 'X', ' ', ' ', 'X', 'X', ' ']
def rowC7 : List Char := ['X', ' ', 'X', ' ', 'X', ' ', 'X']

def matA7 : GlyphMatrix := fun y => if y = 0 then some rowA7 else none
def matB7 : GlyphMatrix := fun y => if y = 0 then some rowB7 else none
def matC7 : GlyphMatrix := fun y => if y = 0 then some rowC7 else none

def fixture7 : List (Nat × GlyphMatrix) := [(65, matA7), (66, matB7), (67, matC7)]

/-- Claim C4: packing width 7, height 1, glyphs A = "XXX   X",
B = "XX  XX ", C = "X X X X" yields the single word
0b00000000010101010011001101000111 with A in byte lane 0 (offset 0),
B in lane 1 (offset 1), C in lane 2 (offset 2), top byte zero. -/
theorem packFont_fixture_7x1 :
    packFont 7 1 fixture7 =
      ([0b00000000010101010011001101000111], [(65, 0), (66, 1), (67, 2)]) := by
  rfl

/-! ## Claim C9: renderer is read-only, SetVariableWidth touches only
varCharWidth -/

theorem drawRune_fst (p : PixFont) (x y : Int) (c : Nat) (clr : Nat) :
    (drawRune p x y c clr).1 = p := by
  cases h : List.lookup c p.charmap <;> simp [drawRune, h]

theorem measureRune_fst (p : PixFont) (c : Nat) : (measureRune p c).1 = p := by
  by_cases h : p.varCharWidth = p.charWidth <;>
    cases hl : List.lookup c p.charmap <;> simp [measureRune, h, hl]

theorem drawString_fst (p : PixFont) (x y : Int) (s : List Nat) (clr : Nat) :
    (drawString p x y s clr).1 = p := by
  induction s generalizing x with
  | nil => rfl
  | cons c cs ih => simp [drawString, drawRune_fst, ih]

theorem measureString_fst (p : PixFont) (s : List Nat) : (measureString p s).1 = p := by
  induction s with
  | nil => rfl
  | cons c cs ih => simp [measureString, measureRune_fst, ih]

/-- Claim C9: DrawRune, DrawString, MeasureRune and MeasureString leave
every field of the font unchanged (the threaded receiver is returned
as-is), and SetVariableWidth changes only `varCharWidth`, never the
dimensions, the charmap or the data. -/
theorem renderer_frame (p : PixFont) (x y : Int) (c : Nat) (clr : Nat)
    (s : List Nat) (isVar : Bool) :
    (drawRune p x y c clr).1 = p ∧ (drawString p x y s clr).1 = p ∧
    (measureRune p c).1 = p ∧ (measureString p s).1 = p ∧
    (setVariableWidth p isVar).charWidth = p.charWidth ∧
    (setVariableWidth p isVar).charHeight = p.charHeight ∧
    (setVariableWidth p isVar).charmap = p.charmap ∧
    (setVariableWidth p isVar).data = p.data := by
  refine ⟨drawRune_fst p x y c clr, drawString_fst p x y s clr,
    measureRune_fst p c, measureString_fst p s, ?_, ?_, ?_, ?_⟩ <;>
    cases isVar <;> simp [setVariableWidth]

/-! ## Claim C2: MeasureRune disagrees with DrawRune's advance -/

/-- Font with one glyph 'A' (offset 0), width 8, height 2, row 0 has ink
at column 2 only, row 1 at column 5 only; variable-width mode on. -/
def bugFontA : PixFont := setVariableWidth (newPixFont 8 2 [(65, 0)] [4, 32]) true

/-- Claim C2 (code bug): for `bugFontA`, MeasureRune('A') returns advance
3 while DrawRune('A') returns advance 6: MeasureRune's inner loop starts
the column counter at the running width but restarts the bit mask at the
lane's bit 0, so later rows are scanned misaligned. -/
theorem measureRune_ne_drawRune_advance_eval :
    (measureRune bugFontA 65).2.2 = 3 ∧ (drawRune bugFontA 0 0 65 0).2.2.1 = 6 ∧
    (measureRune bugFontA 65).2.2 ≠ (drawRune bugFontA 0 0 65 0).2.2.1 := by
  refine ⟨rfl, rfl, by decide⟩

/-! ## Claim C7 counterexample material -/

/-- Font with one glyph 'A' (offset 0), width 8, height 2, row 0 has ink
at column 4 only, row 1 at column 0 only; variable-width mode on.  The
highest set-bit column over all rows is 4. -/
def bugFontB : PixFont := setVariableWidth (newPixFont 8 2 [(65, 0)] [16, 1]) true

/-- Claim C7 counterexample: for `bugFontB`, whose highest set-bit column
is 4, DrawRune('A') returns the claimed advance `4 + Spacing = 5`, but
MeasureRune('A') returns 6: after row 0 sets the width to 5, row 1 is
scanned starting at column 5 with the bit mask restarted at bit 0, so
the ink at column 0 is misread as ink at column 5. -/
theorem measureRune_advance_cx :
    (drawRune bugFontB 0 0 65 0).2.2.1 = 4 + Spacing ∧
    (measureRune bugFontB 65).2.2 = 6 ∧
    (measureRune bugFontB 65).2.2 ≠ 4 + Spacing := by
  refine ⟨rfl, rfl, by decide⟩

/-! ## Claim C8: NewPixFont performs no validation -/

/-- Claim C8 counterexample: the malformed font data
`NewPixFont(8, 2, {65 ↦ 0}, [0x7])` has a charmap offset whose word-block
index plus cellHeight (0 + 2) exceeds `len(data) = 1`, and `len(data)` is
not a multiple of cellHeight, yet construction succeeds and returns the
assembled font: there is no CorruptFont rejection path. -/
theorem newPixFont_accepts_malformed_cx :
    newPixFont 8 2 [(65, 0)] [7] = PixFont.mk 8 2 [(65, 0)] [7] 8 ∧
    (0 : Nat) >>> 2 + 2 > ([7] : List Nat).length ∧
    ¬ 2 ∣ ([7] : List Nat).length := by
  refine ⟨rfl, by decide, by decide⟩

/-- Claim C8 (amended): NewPixFont performs no validation at all: for
every input, malformed or not, it returns the font assembled verbatim
from its arguments (with varCharWidth initialised to the width).  On the
malformed font above, the row slice DrawRune would read
(`data[poff>>2 : poff>>2 + charHeight]`) is shorter than `charHeight`,
which in Go is an out-of-bounds panic at draw time, not load time. -/
theorem newPixFont_no_validation :
    (∀ w h cm d, newPixFont w h cm d = PixFont.mk w h cm d w) ∧
    ((((newPixFont 8 2 [(65, 0)] [7]).data.drop ((0 : Nat) >>> 2)).take
        (newPixFont 8 2 [(65, 0)] [7]).charHeight).length <
      (newPixFont 8 2 [(65, 0)] [7]).charHeight) := by
  exact ⟨fun _ _ _ _ => rfl, by decide⟩

/-! ## Claim C10: width-3 fonts collapse variable mode into fixed mode -/

theorem drawCols_of_ge (word : Nat) (x y : Int) (yy clr : Nat) :
    ∀ n xx w bm acc, xx + n ≤ w →
      (drawCols word x y yy clr n xx w bm acc).1 = w := by
  intro n
  induction n with
  | zero => intro xx w bm acc h; rfl
  | succ n ih =>
    intro xx w bm acc h
    have hlt : ¬ (word &&& bm ≠ 0 ∧ xx ≥ w) := by
      rintro ⟨-, hge⟩; omega
    simp only [drawCols, if_neg hlt]
    exact ih (xx + 1) w _ _ (by omega)

theorem drawRows_of_ge (dd : List Nat) (psub : Nat) (x y : Int) (clr W : Nat) :
    ∀ n yy w acc, W ≤ w →
      (drawRows dd psub x y clr W n yy w acc).1 = w := by
  intro n
  induction n with
  | zero => intro yy w acc h; rfl
  | succ n ih =>
    intro yy w acc h
    simp only [drawRows]
    rw [drawCols_of_ge _ _ _ _ _ _ _ _ _ _ (by omega)]
    exact ih (yy + 1) w _ h

/-- Claim C10: variable-width mode is stored only as the inequality
`varCharWidth ≠ charWidth`; for a font of cell width exactly 3 we have
`max(3, 3/3) = 3 = charWidth`, so SetVariableWidth(true) produces the
very same font as SetVariableWidth(false), and DrawRune / MeasureRune
return advance `charWidth = 3` for every rune, found or not. -/
theorem width3_variable_mode_collapse (p : PixFont) (hp : p.charWidth = 3) :
    setVariableWidth p true = setVariableWidth p false ∧
    (∀ x y c clr, (drawRune (setVariableWidth p true) x y c clr).2.2.1 = p.charWidth) ∧
    (∀ c, (measureRune (setVariableWidth p true) c).2.2 = p.charWidth) := by
  have hq : setVariableWidth p true = { p with varCharWidth := p.charWidth } := by
    simp [setVariableWidth, hp]
  refine ⟨?_, ?_, ?_⟩
  · rw [hq]; simp [setVariableWidth]
  · intro x y c clr
    rw [hq]
    cases hl : List.lookup c p.charmap with
    | none => simp [drawRune, hl]
    | some poff =>
      simp only [drawRune, hl]
      simp only [ne_eq, not_true_eq_false, if_neg, ite_false, if_false, not_false_eq_true]
      exact drawRows_of_ge _ _ _ _ _ _ _ _ _ _ (le_refl _)
  · intro c
    rw [hq]
    simp [measureRune]

/-! ## Claim C6: fallback advance for runes missing from the charmap -/

theorem svw_charWidth (p : PixFont) (b : Bool) :
    (setVariableWidth p b).charWidth = p.charWidth := by
  cases b <;> simp [setVariableWidth]

theorem foldSvw_charWidth (ts : List Bool) (p : PixFont) :
    (ts.foldl setVariableWidth p).charWidth = p.charWidth := by
  induction ts generalizing p with
  | nil => rfl
  | cons t ts ih => rw [List.foldl_cons, ih, svw_charWidth]

theorem foldSvw_charmap (ts : List Bool) (p : PixFont) :
    (ts.foldl setVariableWidth p).charmap = p.charmap := by
  induction ts generalizing p with
  | nil => rfl
  | cons t ts ih =>
    rw [List.foldl_cons, ih]
    cases t <;> simp [setVariableWidth]

theorem foldSvw_varCharWidth (ts : List Bool) (p : PixFont) :
    (ts.foldl setVariableWidth p).varCharWidth =
      (match ts.getLast? with
        | some true => if p.charWidth / 3 < 3 then 3 else p.charWidth / 3
        | some false => p.charWidth
        | none => p.varCharWidth) := by
  induction ts using List.reverseRecOn with
  | nil => rfl
  | append_singleton l t _ =>
    rw [List.foldl_append, List.getLast?_concat]
    cases t <;> simp [setVariableWidth, foldSvw_charWidth]

/-- Claim C6: for a rune absent from the charmap, DrawRune reports
found = false, performs no Set call, and both DrawRune and MeasureRune
return advance `max(3, cellWidth/3)` when the last SetVariableWidth call
enabled variable width, and `cellWidth` when it disabled it or the mode
was never toggled. -/
theorem missing_rune_fallback_advance (w h : Nat) (cm : List (Nat × Nat))
    (dt : List Nat) (ts : List Bool) (c : Nat) (x y : Int) (clr : Nat)
    (habs : List.lookup c cm = none) :
    (drawRune (ts.foldl setVariableWidth (newPixFont w h cm dt)) x y c clr).2.1 = false ∧
    (drawRune (ts.foldl setVariableWidth (newPixFont w h cm dt)) x y c clr).2.2.2 = [] ∧
    (drawRune (ts.foldl setVariableWidth (newPixFont w h cm dt)) x y c clr).2.2.1 =
      (if ts.getLast? = some true then max 3 (w / 3) else w) ∧
    (measureRune (ts.foldl setVariableWidth (newPixFont w h cm dt)) c).2.1 = false ∧
    (measureRune (ts.foldl setVariableWidth (newPixFont w h cm dt)) c).2.2 =
      (if ts.getLast? = some true then max 3 (w / 3) else w) := by
  have hlook : List.lookup c (ts.foldl setVariableWidth (newPixFont w h cm dt)).charmap
      = none := by
    rw [foldSvw_charmap]; exact habs
  have hv : (ts.foldl setVariableWidth (newPixFont w h cm dt)).varCharWidth =
      (if ts.getLast? = some true then max 3 (w / 3) else w) := by
    rw [foldSvw_varCharWidth]
    cases hts : ts.getLast? with
    | none => simp [newPixFont]
    | some b =>
      cases b with
      | false => simp [newPixFont]
      | true =>
        simp only [newPixFont]
        split <;> simp <;> omega
  refine ⟨?_, ?_, ?_, ?_, ?_⟩
  · simp [drawRune, hlook]
  · simp [drawRune, hlook]
  · simp [drawRune, hlook, hv]
  · by_cases hm : (ts.foldl setVariableWidth (newPixFont w h cm dt)).varCharWidth =
        (ts.foldl setVariableWidth (newPixFont w h cm dt)).charWidth <;>
      simp [measureRune, hm, hlook]
  · by_cases hm : (ts.foldl setVariableWidth (newPixFont w h cm dt)).varCharWidth =
        (ts.foldl setVariableWidth (newPixFont w h cm dt)).charWidth
    · have hval : (measureRune (ts.foldl setVariableWidth (newPixFont w h cm dt)) c).2.2 =
          (ts.foldl setVariableWidth (newPixFont w h cm dt)).charWidth := by
        simp [measureRune, hm]
      rw [hval, ← hm, hv]
    · have hval : (measureRune (ts.foldl setVariableWidth (newPixFont w h cm dt)) c).2.2 =
          (ts.foldl setVariableWidth (newPixFont w h cm dt)).varCharWidth := by
        simp [measureRune, hm, hlook]
      rw [hval, hv]

/-! ## Claim C3: size of the allocated data array -/

theorem packGlyphRows_length (w dist : Nat) (m : GlyphMatrix) (i32 : Nat) :
    ∀ n y enc, (packGlyphRows w dist m i32 y n enc).length = enc.length := by
  intro n
  induction n with
  | zero => intro y enc; rfl
  | succ n ih =>
    intro y enc
    simp only [packGlyphRows]
    rw [ih]
    simp

theorem packLoop_length (w h s : Nat) (d : List (Nat × GlyphMatrix)) :
    ∀ cs enc cm i8, ((packLoop w h s d cs (enc, cm, i8)).1).length = enc.length := by
  intro cs
  induction cs with
  | nil => intro enc cm i8; rfl
  | cons c cs ih =>
    intro enc cm i8
    simp only [packLoop]
    rw [ih, packGlyphRows_length]

theorem chPerU32_eq_spec (w : Nat) (hw1 : 1 ≤ w) (hw2 : w ≤ 32) :
    chPerU32 w = glyphsPerWordSpec w := by
  interval_cases w <;> rfl

/-- Claim C3: for width 1-32 and height at least 1, `packFont` returns a
data array of length exactly `ceil(n / glyphsPerWord) * cellHeight`,
where glyphsPerWord is 4 for widths 1-8, 2 for widths 9-16 and 1 for
widths 17-32; in particular the length is a multiple of the height. -/
theorem packFont_data_length (w h : Nat) (d : List (Nat × GlyphMatrix))
    (hw1 : 1 ≤ w) (hw2 : w ≤ 32) (hh : 1 ≤ h) (hnd : (d.map Prod.fst).Nodup) :
    (packFont w h d).1.length =
      (d.length + glyphsPerWordSpec w - 1) / glyphsPerWordSpec w * h ∧
    h ∣ (packFont w h d).1.length := by
  have hlen : (packFont w h d).1.length =
      h * ((d.length + chPerU32 w - 1) / chPerU32 w) := by
    simp only [packFont]
    rw [packLoop_length]
    simp
  constructor
  · rw [hlen, chPerU32_eq_spec w hw1 hw2, Nat.mul_comm]
  · rw [hlen]
    exact ⟨_, rfl⟩

theorem packFont_data_length_witness :
    (fixture7.map Prod.fst).Nodup ∧
    ((packFont 7 1 fixture7).1.length =
        (fixture7.length + glyphsPerWordSpec 7 - 1) / glyphsPerWordSpec 7 * 1 ∧
      1 ∣ (packFont 7 1 fixture7).1.length) :=
  ⟨by decide,
    packFont_data_length 7 1 fixture7 (by decide) (by decide) (by decide) (by decide)⟩

/-! ## Claim C5: packing is deterministic and in ascending code order -/

theorem lookup_eq_of_perm {β : Type} {d1 d2 : List (Nat × β)} (hp : d1.Perm d2) :
    (d1.map Prod.fst).Nodup → ∀ c, List.lookup c d1 = List.lookup c d2 := by
  induction hp with
  | nil => intro _ c; rfl
  | cons a p ih =>
    intro hnd c
    obtain ⟨k, v⟩ := a
    simp only [List.lookup]
    cases hkc : c == k with
    | true => rfl
    | false =>
      simp only [List.map_cons] at hnd
      exact ih hnd.of_cons c
  | swap a b l =>
    intro hnd c
    obtain ⟨ka, va⟩ := a
    obtain ⟨kb, vb⟩ := b
    have hne : kb ≠ ka := by
      simp only [List.map_cons, List.nodup_cons, List.mem_cons] at hnd
      exact fun e => hnd.1 (Or.inl e)
    simp only [List.lookup]
    cases hac : c == ka with
    | true =>
      cases hbc : c == kb with
      | true => exact absurd ((eq_of_beq hac).symm.trans (eq_of_beq hbc)) hne.symm
      | false => rfl
    | false =>
      cases hbc : c == kb with
      | true => rfl
      | false => rfl
  | trans p1 p2 ih1 ih2 =>
    intro hnd c
    rw [ih1 hnd c, ih2 (((p1.map Prod.fst).nodup_iff).mp hnd) c]

theorem packLoop_congr (w h s : Nat) (d1 d2 : List (Nat × GlyphMatrix))
    (hm : ∀ c, List.lookup c d1 = List.lookup c d2) :
    ∀ cs st, packLoop w h s d1 cs st = packLoop w h s d2 cs st := by
  intro cs
  induction cs with
  | nil => intro st; rfl
  | cons c cs ih =>
    intro st
    obtain ⟨enc, cm, i8⟩ := st
    simp only [packLoop, matrixOf, hm c]
    exact ih _

theorem packLoop_cm_fst (w h s : Nat) (d : List (Nat × GlyphMatrix)) :
    ∀ cs enc cm i8, ((packLoop w h s d cs (enc, cm, i8)).2.1).map Prod.fst =
      cm.map Prod.fst ++ cs := by
  intro cs
  induction cs with
  | nil => intro enc cm i8; simp [packLoop]
  | cons c cs ih =>
    intro enc cm i8
    simp only [packLoop]
    rw [ih]
    simp

/-- Claim C5: packing the same code-to-matrix associations, however the
association list is ordered, yields identical data and charmap (glyphs
are processed in ascending character-code order, so the charmap also
lists its keys in ascending order). -/
theorem packFont_deterministic (w h : Nat) (d1 d2 : List (Nat × GlyphMatrix))
    (hnd : (d1.map Prod.fst).Nodup) (hp : d1.Perm d2) :
    packFont w h d1 = packFont w h d2 ∧
    List.Sorted (· ≤ ·) ((packFont w h d1).2.map Prod.fst) := by
  have hkeys : (d1.map Prod.fst).Perm (d2.map Prod.fst) := hp.map Prod.fst
  have hsorteq : List.insertionSort (· ≤ ·) (d1.map Prod.fst) =
      List.insertionSort (· ≤ ·) (d2.map Prod.fst) :=
    List.eq_of_perm_of_sorted
      (((List.perm_insertionSort _ _).trans hkeys).trans
        (List.perm_insertionSort _ _).symm)
      (List.sorted_insertionSort _ _) (List.sorted_insertionSort _ _)
  constructor
  · simp only [packFont]
    rw [hsorteq, hp.length_eq,
      packLoop_congr w h (laneStride w) d1 d2 (lookup_eq_of_perm hp hnd)]
  · simp only [packFont]
    rw [packLoop_cm_fst]
    simp only [List.map_nil, List.nil_append]
    exact List.sorted_insertionSort _ _

def permGlyphA : GlyphMatrix := fun y => if y = 0 then some ['X'] else none
def permGlyphB : GlyphMatrix := fun y => if y = 0 then some ['X', 'X'] else none
def permMap1 : List (Nat × GlyphMatrix) := [(65, permGlyphA), (66, permGlyphB)]
def permMap2 : List (Nat × GlyphMatrix) := [(66, permGlyphB), (65, permGlyphA)]

theorem packFont_deterministic_witness :
    (permMap1.map Prod.fst).Nodup ∧
    (packFont 7 1 permMap1 = packFont 7 1 permMap2 ∧
      List.Sorted (· ≤ ·) ((packFont 7 1 permMap1).2.map Prod.fst)) :=
  ⟨by decide,
    packFont_deterministic 7 1 permMap1 permMap2 (by decide)
      (List.Perm.swap (66, permGlyphB) (65, permGlyphA) [])⟩

/-! ## Claim C7 (amended): DrawRune's variable-width advance -/

theorem getD_lt_of_forall_lt {dd : List Nat} (h : ∀ v ∈ dd, v < 2 ^ 32) (i : Nat) :
    dd.getD i 0 < 2 ^ 32 := by
  rcases Nat.lt_or_ge i dd.length with hi | hi
  · rw [List.getD_eq_getElem?_getD, List.getElem?_eq_getElem hi]
    exact h _ (List.getElem_mem hi)
  · rw [List.getD_eq_getElem?_getD, List.getElem?_eq_none hi]
    exact Nat.pos_pow_of_pos 32 (by norm_num)

/-- The running uint32 mask `2 ^ k % 2 ^ 32` hits `word` exactly when bit
`k` of `word` is set (for `word` in uint32 range); shifts past bit 31
wrap the mask to zero, and such high bits are clear anyway. -/
theorem and_mask_ne_zero (word k : Nat) (hword : word < 2 ^ 32) :
    (word &&& 2 ^ k % 2 ^ 32 ≠ 0) ↔ Nat.testBit word k = true := by
  rcases Nat.lt_or_ge k 32 with hk | hk
  · rw [Nat.mod_eq_of_lt (Nat.pow_lt_pow_right (by norm_num) hk), Nat.and_two_pow]
    cases h : Nat.testBit word k <;> simp [h]
  · have hdvd : (2 : Nat) ^ 32 ∣ 2 ^ k := pow_dvd_pow 2 hk
    have hz : 2 ^ k % 2 ^ 32 = 0 :=
      Nat.dvd_iff_mod_eq_zero.mp hdvd
    have hbit : Nat.testBit word k = false :=
      Nat.testBit_lt_two_pow
        (Nat.lt_of_lt_of_le hword (Nat.pow_le_pow_right (by norm_num) hk))
    rw [hz, hbit]
    simp

theorem drawCols_adv_spec (word : Nat) (x y : Int) (yy clr psub : Nat)
    (hword : word < 2 ^ 32) :
    ∀ n xx w acc,
      w ≤ (drawCols word x y yy clr n xx w (2 ^ (psub + xx) % 2 ^ 32) acc).1 ∧
      (∀ t, xx ≤ t → t < xx + n → Nat.testBit word (psub + t) = true →
        t + 1 ≤ (drawCols word x y yy clr n xx w (2 ^ (psub + xx) % 2 ^ 32) acc).1) ∧
      ((drawCols word x y yy clr n xx w (2 ^ (psub + xx) % 2 ^ 32) acc).1 = w ∨
        ∃ t, xx ≤ t ∧ t < xx + n ∧ Nat.testBit word (psub + t) = true ∧
          (drawCols word x y yy clr n xx w (2 ^ (psub + xx) % 2 ^ 32) acc).1 = t + 1) := by
  intro n
  induction n with
  | zero =>
    intro xx w acc
    refine ⟨Nat.le_refl w, fun t h1 h2 _ => by omega, Or.inl rfl⟩
  | succ n ih =>
    intro xx w acc
    have hbm : 2 ^ (psub + xx) % 2 ^ 32 * 2 % 2 ^ 32 = 2 ^ (psub + (xx + 1)) % 2 ^ 32 := by
      rw [Nat.mod_mul_mod, ← pow_succ, Nat.add_assoc]
    simp only [drawCols, Spacing, hbm]
    set w2 := (if word &&& 2 ^ (psub + xx) % 2 ^ 32 ≠ 0 ∧ xx ≥ w then xx + 1 else w) with hw2
    set acc2 := (if word &&& 2 ^ (psub + xx) % 2 ^ 32 ≠ 0 then
      acc ++ [(x + (xx : Int), y + (yy : Int), clr)] else acc) with hacc2
    obtain ⟨ih1, ih2, ih3⟩ := ih (xx + 1) w2 acc2
    have hww2 : w ≤ w2 := by
      rw [hw2]; split
      · next hcond => exact Nat.le_trans hcond.2 (Nat.le_succ xx)
      · exact Nat.le_refl w
    refine ⟨Nat.le_trans hww2 ih1, ?_, ?_⟩
    · intro t h1 h2 hbit
      rcases Nat.eq_or_lt_of_le h1 with heq | hlt
      · have hhit : word &&& 2 ^ (psub + xx) % 2 ^ 32 ≠ 0 :=
          (and_mask_ne_zero word (psub + xx) hword).mpr (by rw [heq]; exact hbit)
        have hle : t + 1 ≤ w2 := by
          rw [hw2, ← heq]
          split
          · exact Nat.le_refl _
          · next hcond =>
            rcases Decidable.em (xx ≥ w) with hge | hge
            · exact absurd ⟨hhit, hge⟩ hcond
            · omega
        exact Nat.le_trans hle ih1
      · exact ih2 t hlt (by omega) hbit
    · rcases ih3 with h | ⟨t, ht1, ht2, ht3, ht4⟩
      · by_cases hcond : word &&& 2 ^ (psub + xx) % 2 ^ 32 ≠ 0 ∧ xx ≥ w
        · have hw2eq : w2 = xx + 1 := by rw [hw2, if_pos hcond]
          exact Or.inr ⟨xx, Nat.le_refl xx, by omega,
            (and_mask_ne_zero word (psub + xx) hword).mp hcond.1, h.trans hw2eq⟩
        · have hw2eq : w2 = w := by rw [hw2, if_neg hcond]
          exact Or.inl (h.trans hw2eq)
      · exact Or.inr ⟨t, by omega, by omega, ht3, ht4⟩

theorem drawRows_adv_spec (dd : List Nat) (psub : Nat) (x y : Int) (clr W : Nat)
    (hdd : ∀ v ∈ dd, v < 2 ^ 32) :
    ∀ n yy w acc,
      w ≤ (drawRows dd psub x y clr W n yy w acc).1 ∧
      (∀ r t, yy ≤ r → r < yy + n → t < W →
        Nat.testBit (dd.getD r 0) (psub + t) = true →
        t + 1 ≤ (drawRows dd psub x y clr W n yy w acc).1) ∧
      ((drawRows dd psub x y clr W n yy w acc).1 = w ∨
        ∃ r t, yy ≤ r ∧ r < yy + n ∧ t < W ∧
          Nat.testBit (dd.getD r 0) (psub + t) = true ∧
          (drawRows dd psub x y clr W n yy w acc).1 = t + 1) := by
  intro n
  induction n with
  | zero =>
    intro yy w acc
    exact ⟨Nat.le_refl w, fun r t h1 h2 _ _ => by omega, Or.inl rfl⟩
  | succ n ih =>
    intro yy w acc
    have hmask : 1 <<< psub % 2 ^ 32 = 2 ^ (psub + 0) % 2 ^ 32 := by
      rw [Nat.one_shiftLeft, Nat.add_zero]
    simp only [drawRows, hmask]
    obtain ⟨dc1, dc2, dc3⟩ :=
      drawCols_adv_spec (dd.getD yy 0) x y yy clr psub
        (getD_lt_of_forall_lt hdd yy) W 0 w acc
    set r0 := drawCols (dd.getD yy 0) x y yy clr W 0 w (2 ^ (psub + 0) % 2 ^ 32) acc
    obtain ⟨ih1, ih2, ih3⟩ := ih (yy + 1) r0.1 r0.2
    refine ⟨Nat.le_trans dc1 ih1, ?_, ?_⟩
    · intro r t h1 h2 htW hbit
      rcases Nat.eq_or_lt_of_le h1 with heq | hlt
      · subst heq
        exact Nat.le_trans (dc2 t (Nat.zero_le t) (by omega) hbit) ih1
      · exact ih2 r t hlt (by omega) htW hbit
    · rcases ih3 with h | ⟨r, t, hr1, hr2, ht, hbit, heq⟩
      · rcases dc3 with h0 | ⟨t, _, ht2, hbit, heq⟩
        · exact Or.inl (h.trans h0)
        · exact Or.inr ⟨yy, t, Nat.le_refl yy, by omega, by omega, hbit, h.trans heq⟩
      · exact Or.inr ⟨r, t, by omega, by omega, ht, hbit, heq⟩

/-- Claim C7 (amended): in variable-width mode, for a rune present in the
charmap, the advance returned by DrawRune is `m + Spacing` where `m` is
the highest set-bit column over all rows of the decoded glyph, and 0 when
the decoded region is entirely blank.  (The original claim also asserted
this of MeasureRune, which `measureRune_advance_cx` refutes.) -/
theorem drawRune_variable_advance (p : PixFont) (c poff : Nat) (x y : Int) (clr : Nat)
    (hvar : p.varCharWidth ≠ p.charWidth)
    (hc : List.lookup c p.charmap = some poff)
    (hdata : ∀ v ∈ p.data, v < 2 ^ 32) :
    ((∀ yy, yy < p.charHeight → ∀ xx, xx < p.charWidth →
        decodedBit p poff yy xx = false) →
      (drawRune p x y c clr).2.2.1 = 0) ∧
    (∀ mcol, mcol < p.charWidth →
      (∃ yy, yy < p.charHeight ∧ decodedBit p poff yy mcol = true) →
      (∀ yy, yy < p.charHeight → ∀ xx, xx < p.charWidth →
        decodedBit p poff yy xx = true → xx ≤ mcol) →
      (drawRune p x y c clr).2.2.1 = mcol + Spacing) := by
  have hdd : ∀ v ∈ (p.data.drop (poff >>> 2)).take p.charHeight, v < 2 ^ 32 :=
    fun v hv => hdata v (List.mem_of_mem_drop (List.mem_of_mem_take hv))
  have hadv : (drawRune p x y c clr).2.2.1 =
      (drawRows ((p.data.drop (poff >>> 2)).take p.charHeight) ((poff &&& 3) * 8)
        x y clr p.charWidth p.charHeight 0 0 []).1 := by
    simp [drawRune, hc, hvar]
  obtain ⟨h1, h2, h3⟩ :=
    drawRows_adv_spec ((p.data.drop (poff >>> 2)).take p.charHeight)
      ((poff &&& 3) * 8) x y clr p.charWidth hdd p.charHeight 0 0 []
  constructor
  · intro hblank
    simp only [decodedBit] at hblank
    rw [hadv]
    rcases h3 with h | ⟨r, t, _, hr2, ht, hbit, _⟩
    · exact h
    · rw [hblank r (by omega) t ht] at hbit
      simp at hbit
  · intro mcol hmW ⟨ywit, hywit, hbitwit⟩ hmax
    simp only [decodedBit] at hbitwit hmax
    rw [hadv]
    have hlow : mcol + 1 ≤ (drawRows ((p.data.drop (poff >>> 2)).take p.charHeight)
        ((poff &&& 3) * 8) x y clr p.charWidth p.charHeight 0 0 []).1 :=
      h2 ywit mcol (Nat.zero_le _) (by omega) hmW hbitwit
    rcases h3 with h | ⟨r, t, _, hr2, ht, hbit, heq⟩
    · omega
    · have : t ≤ mcol := hmax r (by omega) t ht hbit
      simp only [Spacing]
      omega

/-- Font with one glyph 'A' (offset 0), width 8, height 1, ink at column
2 only; variable-width mode on. -/
def varFontW : PixFont := setVariableWidth (newPixFont 8 1 [(65, 0)] [4]) true

theorem drawRune_variable_advance_witness :
    varFontW.varCharWidth ≠ varFontW.charWidth ∧
    List.lookup 65 varFontW.charmap = some 0 ∧
    (drawRune varFontW 0 0 65 0).2.2.1 = 2 + Spacing :=
  ⟨by decide, by decide,
    (drawRune_variable_advance varFontW 65 0 0 0 0 (by decide) (by decide)
      (by decide)).2 2 (by decide) ⟨0, by decide, by decide⟩ (by decide)⟩

/-! ## Claim C1: layout arithmetic of the packer -/

theorem stride_pos (w : Nat) (hw1 : 1 ≤ w) (hw2 : w ≤ 32) :
    chPerU32 w * laneStride w = 4 ∧ w ≤ 8 * laneStride w ∧ 1 ≤ chPerU32 w ∧
      1 ≤ laneStride w := by
  interval_cases w <;> exact ⟨rfl, by decide, by decide, by decide⟩

theorem lane_succ_le (w : Nat) (hw1 : 1 ≤ w) (hw2 : w ≤ 32) (k : Nat) :
    laneStride w * (k % chPerU32 w) + laneStride w ≤ 4 := by
  obtain ⟨hcs, hws, hc, hs⟩ := stride_pos w hw1 hw2
  have hmod : k % chPerU32 w < chPerU32 w := Nat.mod_lt k hc
  calc laneStride w * (k % chPerU32 w) + laneStride w
      = laneStride w * (k % chPerU32 w + 1) := by ring
    _ ≤ laneStride w * chPerU32 w := Nat.mul_le_mul_left _ (by omega)
    _ = 4 := by rw [Nat.mul_comm]; exact hcs

theorem i8_split (w : Nat) (hw1 : 1 ≤ w) (hw2 : w ≤ 32) (h k : Nat) :
    (k * laneStride w) >>> 2 * h = glyphWord w h k ∧
    (k * laneStride w) &&& 3 = glyphLane w k := by
  obtain ⟨hcs, hws, hc, hs⟩ := stride_pos w hw1 hw2
  have hlane := lane_succ_le w hw1 hw2 k
  have hsplit : k * laneStride w =
      4 * (k / chPerU32 w) + laneStride w * (k % chPerU32 w) := by
    have h0 : chPerU32 w * (k / chPerU32 w) + k % chPerU32 w = k := Nat.div_add_mod k _
    calc k * laneStride w
        = (chPerU32 w * (k / chPerU32 w) + k % chPerU32 w) * laneStride w := by rw [h0]
      _ = chPerU32 w * laneStride w * (k / chPerU32 w) +
          laneStride w * (k % chPerU32 w) := by ring
      _ = 4 * (k / chPerU32 w) + laneStride w * (k % chPerU32 w) := by rw [hcs]
  constructor
  · rw [Nat.shiftRight_eq_div_pow]
    have hdiv : k * laneStride w / 2 ^ 2 = k / chPerU32 w := by
      have h4 : (2 : Nat) ^ 2 = 4 := by norm_num
      rw [h4]
      omega
    rw [hdiv]
    rfl
  · rw [show (3 : Nat) = 2 ^ 2 - 1 from by norm_num, Nat.and_pow_two_sub_one_eq_mod]
    have h4 : (2 : Nat) ^ 2 = 4 := by norm_num
    rw [h4]
    unfold glyphLane
    omega

theorem lane_bound (w : Nat) (hw1 : 1 ≤ w) (hw2 : w ≤ 32) (k : Nat) :
    8 * glyphLane w k + w ≤ 32 ∧ glyphLane w k < 4 := by
  obtain ⟨hcs, hws, hc, hs⟩ := stride_pos w hw1 hw2
  have hlane := lane_succ_le w hw1 hw2 k
  unfold glyphLane
  omega

theorem region_disjoint (w h : Nat) (hw1 : 1 ≤ w) (hw2 : w ≤ 32) (hh : 1 ≤ h)
    {j k i t : Nat} (hjk : j ≠ k) (hj : inRegion w h j i t) : ¬ inRegion w h k i t := by
  obtain ⟨hcs, hws, hc, hs⟩ := stride_pos w hw1 hw2
  intro hk
  unfold inRegion at hj hk
  rcases eq_or_ne (j / chPerU32 w) (k / chPerU32 w) with hq | hq
  · have hmj : j % chPerU32 w ≠ k % chPerU32 w := by
      intro hm
      have e1 : chPerU32 w * (j / chPerU32 w) + j % chPerU32 w = j := Nat.div_add_mod j _
      have e2 : chPerU32 w * (k / chPerU32 w) + k % chPerU32 w = k := Nat.div_add_mod k _
      rw [hq, hm] at e1
      exact hjk (e1.symm.trans e2)
    rcases Nat.lt_or_ge (j % chPerU32 w) (k % chPerU32 w) with hlt | hge
    · have hsep : laneStride w * (j % chPerU32 w) + laneStride w ≤
          laneStride w * (k % chPerU32 w) := by
        calc laneStride w * (j % chPerU32 w) + laneStride w
            = laneStride w * (j % chPerU32 w + 1) := by ring
          _ ≤ laneStride w * (k % chPerU32 w) := Nat.mul_le_mul_left _ (by omega)
      unfold glyphLane at hj hk
      omega
    · have hlt : k % chPerU32 w < j % chPerU32 w := by omega
      have hsep : laneStride w * (k % chPerU32 w) + laneStride w ≤
          laneStride w * (j % chPerU32 w) := by
        calc laneStride w * (k % chPerU32 w) + laneStride w
            = laneStride w * (k % chPerU32 w + 1) := by ring
          _ ≤ laneStride w * (j % chPerU32 w) := Nat.mul_le_mul_left _ (by omega)
      unfold glyphLane at hj hk
      omega
  · rcases Nat.lt_or_ge (j / chPerU32 w) (k / chPerU32 w) with hlt | hge2
    · have hle : (j / chPerU32 w + 1) * h ≤ k / chPerU32 w * h :=
        Nat.mul_le_mul_right h (by omega)
      have hexp : (j / chPerU32 w + 1) * h = j / chPerU32 w * h + h := by ring
      unfold glyphWord at hj hk
      omega
    · have hlt : k / chPerU32 w < j / chPerU32 w := by omega
      have hle : (k / chPerU32 w + 1) * h ≤ j / chPerU32 w * h :=
        Nat.mul_le_mul_right h (by omega)
      have hexp : (k / chPerU32 w + 1) * h = k / chPerU32 w * h + h := by ring
      unfold glyphWord at hj hk
      omega

/-! ## Claim C1: bit-level description of the packing loops -/

theorem packRowLoop_testBit (ld : List Char) (p : Nat) :
    ∀ n x line t, t < 32 →
      Nat.testBit (packRowLoop ld n x line (2 ^ (p + x) % 2 ^ 32)) t =
        (Nat.testBit line t ||
          if p + x ≤ t ∧ t < p + x + n then inkAt ld (t - p) else false) := by
  intro n
  induction n with
  | zero =>
    intro x line t ht
    rw [if_neg (show ¬ (p + x ≤ t ∧ t < p + x + 0) from by omega)]
    simp [packRowLoop]
  | succ n ih =>
    intro x line t ht
    have hbm : 2 ^ (p + x) % 2 ^ 32 * 2 % 2 ^ 32 = 2 ^ (p + (x + 1)) % 2 ^ 32 := by
      rw [Nat.mod_mul_mod, ← pow_succ, Nat.add_assoc]
    have hmb : Nat.testBit (2 ^ (p + x) % 2 ^ 32) t = decide (p + x = t) := by
      rcases Nat.lt_or_ge (p + x) 32 with hlt | hge
      · rw [Nat.mod_eq_of_lt (Nat.pow_lt_pow_right (by norm_num) hlt),
          Nat.testBit_two_pow]
      · have hz : 2 ^ (p + x) % 2 ^ 32 = 0 :=
          Nat.dvd_iff_mod_eq_zero.mp (pow_dvd_pow 2 hge)
        rw [hz, Nat.zero_testBit]
        have hne : ¬ (p + x = t) := by omega
        simp [hne]
    simp only [packRowLoop, hbm]
    rw [ih (x + 1) _ t ht]
    by_cases hink : inkAt ld x
    · rw [if_pos hink, Nat.testBit_or, hmb]
      by_cases heq : p + x = t
      · have hx : t - p = x := by omega
        rw [if_neg (show ¬ (p + (x + 1) ≤ t ∧ t < p + (x + 1) + n) from by omega),
          if_pos (show p + x ≤ t ∧ t < p + x + (n + 1) from by omega), hx]
        simp [heq, hink]
      · by_cases hc : p + x ≤ t ∧ t < p + x + (n + 1)
        · rw [if_pos (show p + (x + 1) ≤ t ∧ t < p + (x + 1) + n from by omega),
            if_pos hc]
          simp [heq]
        · rw [if_neg (show ¬ (p + (x + 1) ≤ t ∧ t < p + (x + 1) + n) from by omega),
            if_neg hc]
          simp [heq]
    · rw [if_neg hink]
      have hinkf : inkAt ld x = false := by
        cases hif : inkAt ld x
        · rfl
        · exact absurd hif hink
      by_cases heq : p + x = t
      · have hx : t - p = x := by omega
        rw [if_neg (show ¬ (p + (x + 1) ≤ t ∧ t < p + (x + 1) + n) from by omega),
          if_pos (show p + x ≤ t ∧ t < p + x + (n + 1) from by omega), hx, hinkf]
      · by_cases hc : p + x ≤ t ∧ t < p + x + (n + 1)
        · rw [if_pos (show p + (x + 1) ≤ t ∧ t < p + (x + 1) + n from by omega),
            if_pos hc]
        · rw [if_neg (show ¬ (p + (x + 1) ≤ t ∧ t < p + (x + 1) + n) from by omega),
            if_neg hc]

theorem packGlyphRows_testBit (w dist : Nat) (m : GlyphMatrix) (i32 : Nat) :
    ∀ n y enc i t, t < 32 → i32 + y + n ≤ enc.length →
      Nat.testBit ((packGlyphRows w dist m i32 y n enc).getD i 0) t =
        (Nat.testBit (enc.getD i 0) t ||
          if i32 + y ≤ i ∧ i < i32 + y + n ∧ 8 * dist ≤ t ∧ t < 8 * dist + w then
            glyphInk m (i - i32) (t - 8 * dist)
          else false) := by
  intro n
  induction n with
  | zero =>
    intro y enc i t ht hlen
    rw [if_neg (show ¬ (i32 + y ≤ i ∧ i < i32 + y + 0 ∧ 8 * dist ≤ t ∧
        t < 8 * dist + w) from by omega)]
    simp [packGlyphRows]
  | succ n ih =>
    intro y enc i t ht hlen
    have hinb : i32 + y < enc.length := by omega
    simp only [packGlyphRows]
    cases hmy : m y with
    | none =>
      simp only [hmy]
      rw [ih (y + 1) (enc.set (i32 + y) (enc.getD (i32 + y) 0)) i t ht
        (by rw [List.length_set]; omega)]
      by_cases hi : i = i32 + y
      · subst hi
        rw [getD_set_self hinb]
        have hiy : i32 + y - i32 = y := by omega
        have hink : glyphInk m (i32 + y - i32) (t - 8 * dist) = false := by
          rw [hiy]; unfold glyphInk; rw [hmy]
        rw [if_neg (show ¬ (i32 + (y + 1) ≤ i32 + y ∧ i32 + y < i32 + (y + 1) + n ∧
            8 * dist ≤ t ∧ t < 8 * dist + w) from by omega)]
        by_cases hc : i32 + y ≤ i32 + y ∧ i32 + y < i32 + y + (n + 1) ∧
            8 * dist ≤ t ∧ t < 8 * dist + w
        · rw [if_pos hc, hink]
        · rw [if_neg hc]
      · rw [getD_set_ne (fun e => hi e.symm)]
        by_cases hfull : i32 + y ≤ i ∧ i < i32 + y + (n + 1) ∧
            8 * dist ≤ t ∧ t < 8 * dist + w
        · rw [if_pos hfull, if_pos (show i32 + (y + 1) ≤ i ∧ i < i32 + (y + 1) + n ∧
            8 * dist ≤ t ∧ t < 8 * dist + w from by omega)]
        · rw [if_neg hfull, if_neg (show ¬ (i32 + (y + 1) ≤ i ∧ i < i32 + (y + 1) + n ∧
            8 * dist ≤ t ∧ t < 8 * dist + w) from by omega)]
    | some ld =>
      simp only [hmy]
      rw [ih (y + 1)
        (enc.set (i32 + y)
          (packRowLoop ld w 0 (enc.getD (i32 + y) 0) (1 <<< (8 * dist) % 2 ^ 32)))
        i t ht (by rw [List.length_set]; omega)]
      by_cases hi : i = i32 + y
      · subst hi
        rw [getD_set_self hinb]
        have hsh : (1 : Nat) <<< (8 * dist) % 2 ^ 32 = 2 ^ (8 * dist + 0) % 2 ^ 32 := by
          rw [Nat.one_shiftLeft, Nat.add_zero]
        rw [hsh, packRowLoop_testBit ld (8 * dist) w 0 _ t ht]
        have hiy : i32 + y - i32 = y := by omega
        have hink : glyphInk m (i32 + y - i32) (t - 8 * dist) = inkAt ld (t - 8 * dist) := by
          rw [hiy]; unfold glyphInk; rw [hmy]
        rw [if_neg (show ¬ (i32 + (y + 1) ≤ i32 + y ∧ i32 + y < i32 + (y + 1) + n ∧
            8 * dist ≤ t ∧ t < 8 * dist + w) from by omega)]
        by_cases hlane : 8 * dist ≤ t ∧ t < 8 * dist + w
        · rw [if_pos (show 8 * dist + 0 ≤ t ∧ t < 8 * dist + 0 + w from by omega),
            if_pos (show i32 + y ≤ i32 + y ∧ i32 + y < i32 + y + (n + 1) ∧
              8 * dist ≤ t ∧ t < 8 * dist + w from by omega), hink]
          simp
        · rw [if_neg (show ¬ (8 * dist + 0 ≤ t ∧ t < 8 * dist + 0 + w) from by omega),
            if_neg (show ¬ (i32 + y ≤ i32 + y ∧ i32 + y < i32 + y + (n + 1) ∧
              8 * dist ≤ t ∧ t < 8 * dist + w) from by omega)]
          simp
      · rw [getD_set_ne (fun e => hi e.symm)]
        by_cases hfull : i32 + y ≤ i ∧ i < i32 + y + (n + 1) ∧
            8 * dist ≤ t ∧ t < 8 * dist + w
        · rw [if_pos hfull, if_pos (show i32 + (y + 1) ≤ i ∧ i < i32 + (y + 1) + n ∧
            8 * dist ≤ t ∧ t < 8 * dist + w from by omega)]
        · rw [if_neg hfull, if_neg (show ¬ (i32 + (y + 1) ≤ i ∧ i < i32 + (y + 1) + n ∧
            8 * dist ≤ t ∧ t < 8 * dist + w) from by omega)]

/-! ## Claim C1: the packing loop invariant -/

theorem packLoop_spec (w h : Nat) (d : List (Nat × GlyphMatrix))
    (hw1 : 1 ≤ w) (hw2 : w ≤ 32) (hh : 1 ≤ h) :
    ∀ (cs : List Nat) (k : Nat) (enc : List Nat) (cm : List (Nat × Nat)),
      (∀ j, j < cs.length → glyphWord w h (k + j) + h ≤ enc.length) →
      (∀ j, j < cs.length → ∀ i t, t < 32 → inRegion w h (k + j) i t →
        Nat.testBit (enc.getD i 0) t = false) →
      (packLoop w h (laneStride w) d cs (enc, cm, k * laneStride w)).1.length = enc.length ∧
      (packLoop w h (laneStride w) d cs (enc, cm, k * laneStride w)).2.1 =
        cm ++ offsetsFrom w h cs k ∧
      (∀ i t, t < 32 → (∀ j, j < cs.length → ¬ inRegion w h (k + j) i t) →
        Nat.testBit
          ((packLoop w h (laneStride w) d cs (enc, cm, k * laneStride w)).1.getD i 0) t =
          Nat.testBit (enc.getD i 0) t) ∧
      (∀ j, j < cs.length → ∀ i t, t < 32 → inRegion w h (k + j) i t →
        Nat.testBit
          ((packLoop w h (laneStride w) d cs (enc, cm, k * laneStride w)).1.getD i 0) t =
          glyphInk (matrixOf d (cs.getD j 0)) (i - glyphWord w h (k + j))
            (t - 8 * glyphLane w (k + j))) := by
  intro cs
  induction cs with
  | nil =>
    intro k enc cm hcap hz
    refine ⟨rfl, by simp [packLoop, offsetsFrom], fun i t ht hout => rfl,
      fun j hj => absurd hj (by simp)⟩
  | cons c cs ih =>
    intro k enc cm hcap hz
    obtain ⟨hi32, hdist⟩ := i8_split w hw1 hw2 h k
    have harith : k * laneStride w + laneStride w = (k + 1) * laneStride w := by ring
    have hstep : packLoop w h (laneStride w) d (c :: cs) (enc, cm, k * laneStride w) =
        packLoop w h (laneStride w) d cs
          (packGlyphRows w (glyphLane w k) (matrixOf d c) (glyphWord w h k) 0 h enc,
            cm ++ [(c, glyphOff w h k)], (k + 1) * laneStride w) := by
      simp only [packLoop, glyphOff]
      rw [hi32, hdist, harith]
    have hcap0 : glyphWord w h k + h ≤ enc.length := hcap 0 (by simp)
    have hlen1 : (packGlyphRows w (glyphLane w k) (matrixOf d c) (glyphWord w h k)
        0 h enc).length = enc.length :=
      packGlyphRows_length w (glyphLane w k) (matrixOf d c) (glyphWord w h k) h 0 enc
    have henc1bit : ∀ i t, t < 32 →
        Nat.testBit ((packGlyphRows w (glyphLane w k) (matrixOf d c) (glyphWord w h k)
            0 h enc).getD i 0) t =
          (Nat.testBit (enc.getD i 0) t ||
            if inRegion w h k i t then
              glyphInk (matrixOf d c) (i - glyphWord w h k) (t - 8 * glyphLane w k)
            else false) := by
      intro i t ht
      rw [packGlyphRows_testBit w (glyphLane w k) (matrixOf d c) (glyphWord w h k)
        h 0 enc i t ht (by omega)]
      congr 1
    have hcap1 : ∀ j, j < cs.length → glyphWord w h (k + 1 + j) + h ≤
        (packGlyphRows w (glyphLane w k) (matrixOf d c) (glyphWord w h k)
          0 h enc).length := by
      intro j hj
      rw [hlen1, show k + 1 + j = k + (j + 1) from by omega]
      exact hcap (j + 1) (by simp only [List.length_cons]; omega)
    have hz1 : ∀ j, j < cs.length → ∀ i t, t < 32 → inRegion w h (k + 1 + j) i t →
        Nat.testBit ((packGlyphRows w (glyphLane w k) (matrixOf d c) (glyphWord w h k)
          0 h enc).getD i 0) t = false := by
      intro j hj i t ht hreg
      rw [henc1bit i t ht]
      rw [show k + 1 + j = k + (j + 1) from by omega] at hreg
      have hne : k ≠ k + (j + 1) := by omega
      rw [if_neg (fun hr => region_disjoint w h hw1 hw2 hh hne hr hreg)]
      rw [hz (j + 1) (by simp only [List.length_cons]; omega) i t ht hreg]
      simp
    obtain ⟨ihlen, ihcm, ihframe, ihreg⟩ :=
      ih (k + 1) (packGlyphRows w (glyphLane w k) (matrixOf d c) (glyphWord w h k) 0 h enc)
        (cm ++ [(c, glyphOff w h k)]) hcap1 hz1
    rw [hstep]
    refine ⟨?_, ?_, ?_, ?_⟩
    · rw [ihlen, hlen1]
    · rw [ihcm]
      simp [offsetsFrom]
    · intro i t ht hout
      have hout1 : ∀ j, j < cs.length → ¬ inRegion w h (k + 1 + j) i t := by
        intro j hj
        rw [show k + 1 + j = k + (j + 1) from by omega]
        exact hout (j + 1) (by simp only [List.length_cons]; omega)
      rw [ihframe i t ht hout1, henc1bit i t ht,
        if_neg (show ¬ inRegion w h k i t from fun hr => hout 0 (by simp) hr)]
      simp
    · intro j hj i t ht hreg
      cases j with
      | zero =>
        have hdisj : ∀ j2, j2 < cs.length → ¬ inRegion w h (k + 1 + j2) i t := by
          intro j2 hj2
          exact region_disjoint w h hw1 hw2 hh
            (show k + 0 ≠ k + 1 + j2 from by omega) hreg
        rw [ihframe i t ht hdisj, henc1bit i t ht,
          if_pos (show inRegion w h k i t from hreg),
          hz 0 (by simp) i t ht hreg]
        simp
      | succ j2 =>
        have he : k + (j2 + 1) = k + 1 + j2 := by omega
        rw [he] at hreg ⊢
        exact ihreg j2 (by simpa using hj) i t ht hreg

/-! ## Claim C1: locating a glyph's charmap entry -/

theorem getD_mem_of_lt {cs : List Nat} {j : Nat} (hj : j < cs.length) :
    cs.getD j 0 ∈ cs := by
  rw [List.getD_eq_getElem?_getD, List.getElem?_eq_getElem hj]
  exact List.getElem_mem hj

theorem lookup_offsetsFrom (w h : Nat) :
    ∀ (cs : List Nat), cs.Nodup → ∀ j, j < cs.length → ∀ k0,
      List.lookup (cs.getD j 0) (offsetsFrom w h cs k0) =
        some (glyphOff w h (k0 + j)) := by
  intro cs
  induction cs with
  | nil => intro _ j hj; exact absurd hj (by simp)
  | cons c0 cs ih =>
    intro hnd j hj k0
    obtain ⟨hc0, hndtail⟩ := List.nodup_cons.mp hnd
    cases j with
    | zero =>
      simp [offsetsFrom, List.lookup]
    | succ j =>
      have hjlen : j < cs.length := by simpa using hj
      have hne : cs.getD j 0 ≠ c0 := by
        intro he
        exact hc0 (he ▸ getD_mem_of_lt hjlen)
      have hbeq : (cs.getD j 0 == c0) = false := by
        simp only [beq_eq_false_iff_ne]
        exact hne
      simp only [offsetsFrom, List.lookup, List.getD_cons_succ, hbeq]
      rw [ih hndtail j hjlen (k0 + 1), show k0 + 1 + j = k0 + (j + 1) from by omega]

theorem lookup_of_mem_nodup {β : Type} {d : List (Nat × β)} {c : Nat} {m : β}
    (hmem : (c, m) ∈ d) (hnd : (d.map Prod.fst).Nodup) :
    List.lookup c d = some m := by
  induction d with
  | nil => cases hmem
  | cons a d ih =>
    obtain ⟨k, v⟩ := a
    simp only [List.map_cons, List.nodup_cons] at hnd
    rcases List.mem_cons.mp hmem with heq | htail
    · obtain ⟨e1, e2⟩ := Prod.mk.injEq c m k v ▸ heq
      subst e1
      subst e2
      simp [List.lookup]
    · have hkc : c ≠ k := by
        intro he
        subst he
        exact hnd.1 (List.mem_map.mpr ⟨(c, m), htail, rfl⟩)
      have hbeq : (c == k) = false := by simp [hkc]
      simp only [List.lookup, hbeq]
      exact ih htail hnd.2

theorem glyphWord_cap (w h : Nat) (hw1 : 1 ≤ w) (hw2 : w ≤ 32) (n j : Nat) (hj : j < n) :
    glyphWord w h j + h ≤ h * ((n + chPerU32 w - 1) / chPerU32 w) := by
  obtain ⟨hcs, hws, hc, hs⟩ := stride_pos w hw1 hw2
  have h2 : (n + chPerU32 w - 1) / chPerU32 w = (n - 1) / chPerU32 w + 1 := by
    rw [show n + chPerU32 w - 1 = (n - 1) + chPerU32 w from by omega,
      Nat.add_div_right _ hc]
  have h1 : j / chPerU32 w ≤ (n - 1) / chPerU32 w := Nat.div_le_div_right (by omega)
  unfold glyphWord
  rw [h2]
  calc j / chPerU32 w * h + h
      ≤ (n - 1) / chPerU32 w * h + h :=
        Nat.add_le_add_right (Nat.mul_le_mul_right h h1) h
    _ = h * ((n - 1) / chPerU32 w + 1) := by ring

theorem glyphOff_eval (w h k : Nat) (hw1 : 1 ≤ w) (hw2 : w ≤ 32)
    (hsm : 4 * glyphWord w h k + glyphLane w k < 2 ^ 16) :
    glyphOff w h k >>> 2 = glyphWord w h k ∧
    glyphOff w h k &&& 3 = glyphLane w k := by
  have hlane : glyphLane w k < 4 := (lane_bound w hw1 hw2 k).2
  have hor : glyphWord w h k <<< 2 ||| glyphLane w k =
      4 * glyphWord w h k + glyphLane w k := by
    have hmo := Nat.mul_add_lt_is_or
      (show glyphLane w k < 2 ^ 2 from by omega) (glyphWord w h k)
    rw [Nat.shiftLeft_eq, Nat.mul_comm (glyphWord w h k) (2 ^ 2), ← hmo]
  have hoffeq : glyphOff w h k = 4 * glyphWord w h k + glyphLane w k := by
    unfold glyphOff
    rw [hor, Nat.mod_eq_of_lt hsm]
  constructor
  · rw [hoffeq, Nat.shiftRight_eq_div_pow]
    rw [show (2 : Nat) ^ 2 = 4 from by norm_num]
    omega
  · rw [hoffeq, show (3 : Nat) = 2 ^ 2 - 1 from by norm_num,
      Nat.and_pow_two_sub_one_eq_mod]
    rw [show (2 : Nat) ^ 2 = 4 from by norm_num]
    omega

/-- Claim C1 (amended): the round-trip holds for every font whose packed
data array fits in 16384 words (so that every 16-bit charmap offset is
stored without truncation; `packFont_offset_truncation_cx` shows the
original unrestricted claim fails beyond that).  For every cell width in
[1,32], height at least 1, duplicate-free glyph map and character `c` in
it: decoding `c`'s offset as `wordBlockIndex = charmap[c] >> 2` and
`bitBase = (charmap[c] & 3) * 8`, bit `bitBase + x` of
`data[wordBlockIndex + y]` is set exactly when the input matrix marks row
`y`, column `x` as ink, for all `x < width`, `y < height` (absent rows
and positions past a row's end count as no-ink). -/
theorem packFont_roundTrip_inBounds (w h : Nat) (d : List (Nat × GlyphMatrix))
    (c : Nat) (m : GlyphMatrix) (hw1 : 1 ≤ w) (hw2 : w ≤ 32) (hh : 1 ≤ h)
    (hnd : (d.map Prod.fst).Nodup) (hmem : (c, m) ∈ d)
    (hsmall : (packFont w h d).1.length ≤ 2 ^ 14) :
    ∃ off, List.lookup c (packFont w h d).2 = some off ∧
      ∀ y, y < h → ∀ x, x < w →
        Nat.testBit ((packFont w h d).1.getD (off >>> 2 + y) 0) ((off &&& 3) * 8 + x) =
          glyphInk m y x := by
  have hfst : (packFont w h d).1 = (packLoop w h (laneStride w) d
      (List.insertionSort (· ≤ ·) (d.map Prod.fst))
      (List.replicate (h * ((d.length + chPerU32 w - 1) / chPerU32 w)) 0, [], 0)).1 := rfl
  have hsnd : (packFont w h d).2 = (packLoop w h (laneStride w) d
      (List.insertionSort (· ≤ ·) (d.map Prod.fst))
      (List.replicate (h * ((d.length + chPerU32 w - 1) / chPerU32 w)) 0, [], 0)).2.1 := rfl
  have hperm : (List.insertionSort (· ≤ ·) (d.map Prod.fst)).Perm (d.map Prod.fst) :=
    List.perm_insertionSort _ _
  have hlenchs : (List.insertionSort (· ≤ ·) (d.map Prod.fst)).length = d.length := by
    rw [hperm.length_eq, List.length_map]
  have hndchs : (List.insertionSort (· ≤ ·) (d.map Prod.fst)).Nodup :=
    hperm.nodup_iff.mpr hnd
  have hcmem : c ∈ List.insertionSort (· ≤ ·) (d.map Prod.fst) :=
    hperm.mem_iff.mpr (List.mem_map.mpr ⟨(c, m), hmem, rfl⟩)
  obtain ⟨idx, hidx⟩ := List.mem_iff_get.mp hcmem
  have hgetD : (List.insertionSort (· ≤ ·) (d.map Prod.fst)).getD idx.1 0 = c := by
    rw [List.getD_eq_getElem?_getD, List.getElem?_eq_getElem idx.2]
    simpa using hidx
  have hcap : ∀ j, j < (List.insertionSort (· ≤ ·) (d.map Prod.fst)).length →
      glyphWord w h (0 + j) + h ≤
        (List.replicate (h * ((d.length + chPerU32 w - 1) / chPerU32 w)) (0 : Nat)).length := by
    intro j hj
    rw [List.length_replicate, Nat.zero_add]
    exact glyphWord_cap w h hw1 hw2 d.length j (by omega)
  have hz : ∀ j, j < (List.insertionSort (· ≤ ·) (d.map Prod.fst)).length →
      ∀ i t, t < 32 → inRegion w h (0 + j) i t →
      Nat.testBit ((List.replicate (h * ((d.length + chPerU32 w - 1) / chPerU32 w))
        (0 : Nat)).getD i 0) t = false := by
    intro j hj i t ht hreg
    rw [getD_replicate]
    exact Nat.zero_testBit t
  obtain ⟨hlen, hcm, hframe, hregfin⟩ :=
    packLoop_spec w h d hw1 hw2 hh (List.insertionSort (· ≤ ·) (d.map Prod.fst)) 0
      (List.replicate (h * ((d.length + chPerU32 w - 1) / chPerU32 w)) 0) [] hcap hz
  rw [Nat.zero_mul] at hlen hcm hframe hregfin
  simp only [Nat.zero_add] at hcm hframe hregfin
  have hL : (packFont w h d).1.length =
      h * ((d.length + chPerU32 w - 1) / chPerU32 w) := by
    rw [hfst, hlen, List.length_replicate]
  have hcapidx : glyphWord w h idx.1 + h ≤
      h * ((d.length + chPerU32 w - 1) / chPerU32 w) :=
    glyphWord_cap w h hw1 hw2 d.length idx.1 (by rw [← hlenchs]; exact idx.2)
  have hlane4 : glyphLane w idx.1 < 4 := (lane_bound w hw1 hw2 idx.1).2
  have hsm : 4 * glyphWord w h idx.1 + glyphLane w idx.1 < 2 ^ 16 := by
    rw [hL] at hsmall
    have h14 : (2 : Nat) ^ 16 = 4 * 2 ^ 14 := by norm_num
    omega
  obtain ⟨hoff2, hoff3⟩ := glyphOff_eval w h idx.1 hw1 hw2 hsm
  refine ⟨glyphOff w h idx.1, ?_, ?_⟩
  · rw [hsnd, hcm, List.nil_append, ← hgetD]
    rw [lookup_offsetsFrom w h _ hndchs idx.1 idx.2 0, Nat.zero_add]
  · intro y hy x hx
    rw [hoff2, hoff3]
    have hmx : matrixOf d c = m := by
      unfold matrixOf
      rw [lookup_of_mem_nodup hmem hnd]
      rfl
    have ht32 : glyphLane w idx.1 * 8 + x < 32 := by
      have := (lane_bound w hw1 hw2 idx.1).1
      omega
    have hreg : inRegion w h idx.1 (glyphWord w h idx.1 + y) (glyphLane w idx.1 * 8 + x) := by
      unfold inRegion
      refine ⟨by omega, by omega, by omega, ?_⟩
      omega
    have := hregfin idx.1 idx.2 (glyphWord w h idx.1 + y) (glyphLane w idx.1 * 8 + x)
      ht32 hreg
    rw [hfst, this, hgetD, hmx]
    rw [show glyphWord w h idx.1 + y - glyphWord w h idx.1 = y from by omega,
      show glyphLane w idx.1 * 8 + x - 8 * glyphLane w idx.1 = x from by omega]

theorem packFont_roundTrip_inBounds_witness :
    ((fixture7.map Prod.fst).Nodup ∧ (65, matA7) ∈ fixture7 ∧
      (packFont 7 1 fixture7).1.length ≤ 2 ^ 14) ∧
    (∃ off, List.lookup 65 (packFont 7 1 fixture7).2 = some off ∧
      ∀ y, y < 1 → ∀ x, x < 7 →
        Nat.testBit ((packFont 7 1 fixture7).1.getD (off >>> 2 + y) 0)
          ((off &&& 3) * 8 + x) = glyphInk matA7 y x) :=
  ⟨⟨by decide, List.Mem.head _, by decide⟩,
    packFont_roundTrip_inBounds 7 1 fixture7 65 matA7 (by decide) (by decide)
      (by decide) (by decide) (List.Mem.head _) (by decide)⟩

/-! ## Claim C1: the unrestricted round-trip fails by uint16 truncation -/

theorem packRowLoop_pastEnd (ld : List Char) :
    ∀ n x line b, ld.length ≤ x → packRowLoop ld n x line b = line := by
  intro n
  induction n with
  | zero => intro x line b hx; rfl
  | succ n ih =>
    intro x line b hx
    have hink : inkAt ld x = false := by
      unfold inkAt
      rw [decide_eq_false (show ¬ (ld.length > x) from by omega)]
      rfl
    simp only [packRowLoop, hink, Bool.false_eq_true, if_false]
    exact ih (x + 1) line _ (by omega)

theorem packGlyphRows_none_from (w dist : Nat) (m : GlyphMatrix) (i32 : Nat) :
    ∀ n y enc, (∀ j, y ≤ j → m j = none) →
      packGlyphRows w dist m i32 y n enc = enc := by
  intro n
  induction n with
  | zero => intro y enc hm; rfl
  | succ n ih =>
    intro y enc hm
    simp only [packGlyphRows, hm y (Nat.le_refl y)]
    rw [set_getD_self]
    exact ih (y + 1) enc (fun j hj => hm j (by omega))

/-- Glyph 'A' of the truncation counterexample: an empty matrix. -/
def cxMatrixA : GlyphMatrix := fun _ => none

/-- Glyph 'B' of the truncation counterexample: one ink pixel at (0,0). -/
def cxMatrixB : GlyphMatrix := fun yy => if yy = 0 then some ['X'] else none

/-- Width-17, height-16384 glyph map whose second glyph's charmap offset
(65536) overflows uint16 and is stored as 0. -/
def cxMap : List (Nat × GlyphMatrix) := [(65, cxMatrixA), (66, cxMatrixB)]

theorem cxMap_packFont_eval :
    (packFont 17 16384 cxMap).1 = (List.replicate 32768 0).set 16384 1 ∧
    (packFont 17 16384 cxMap).2 = [(65, 0), (66, 0)] := by
  have h1 : packFont 17 16384 cxMap =
      ((packLoop 17 16384 4 cxMap [65, 66] (List.replicate 32768 0, [], 0)).1,
        (packLoop 17 16384 4 cxMap [65, 66] (List.replicate 32768 0, [], 0)).2.1) := rfl
  have hm65 : matrixOf cxMap 65 = cxMatrixA := rfl
  have hm66 : matrixOf cxMap 66 = cxMatrixB := rfl
  have hstep1 : packLoop 17 16384 4 cxMap [65, 66] (List.replicate 32768 0, [], 0) =
      packLoop 17 16384 4 cxMap [66] (List.replicate 32768 0, [(65, 0)], 4) := by
    simp only [packLoop, hm65]
    rw [show (0 : Nat) >>> 2 * 16384 = 0 from by decide,
      show (0 : Nat) &&& 3 = 0 from by decide,
      show ((0 : Nat) <<< 2 ||| 0) % 2 ^ 16 = 0 from by decide,
      packGlyphRows_none_from 17 0 cxMatrixA 0 16384 0 (List.replicate 32768 0)
        (fun j hj => rfl)]
    rfl
  have hrowsB : packGlyphRows 17 0 cxMatrixB 16384 0 16384 (List.replicate 32768 0) =
      (List.replicate 32768 0).set 16384 1 := by
    have h0 : ∀ n enc, packGlyphRows 17 0 cxMatrixB 16384 0 (n + 1) enc =
        packGlyphRows 17 0 cxMatrixB 16384 1 n
          (enc.set 16384
            (packRowLoop ['X'] 17 0 (enc.getD 16384 0) (1 <<< 0 % 2 ^ 32))) :=
      fun n enc => rfl
    have h0x := h0 16383 (List.replicate 32768 0)
    norm_num at h0x
    rw [h0x, show packRowLoop ['X'] 17 0 0 1 = 1 from by decide,
      packGlyphRows_none_from 17 0 cxMatrixB 16384 16383 1
        ((List.replicate 32768 0).set 16384 1)
        (fun j hj => by unfold cxMatrixB; rw [if_neg (by omega)])]
  have hstep2 : packLoop 17 16384 4 cxMap [66] (List.replicate 32768 0, [(65, 0)], 4) =
      packLoop 17 16384 4 cxMap []
        ((List.replicate 32768 0).set 16384 1, [(65, 0), (66, 0)], 8) := by
    simp only [packLoop, hm66]
    rw [show (4 : Nat) >>> 2 * 16384 = 16384 from by decide,
      show (4 : Nat) &&& 3 = 0 from by decide,
      show ((16384 : Nat) <<< 2 ||| 0) % 2 ^ 16 = 0 from by decide,
      hrowsB]
    rfl
  rw [h1, hstep1, hstep2]
  exact ⟨rfl, rfl⟩

/-- Claim C1 counterexample: for width 17, height 16384 and the two-glyph
map `cxMap`, glyph 66's true offset is `(16384 << 2) | 0 = 65536`, which
the uint16 charmap stores as 0.  Decoding 66 through its stored offset
(wordBlockIndex 0, bitBase 0) reads bit 0 of `data[0]`, which is clear,
although the input matrix of 66 marks row 0, column 0 as ink — the claim
as stated (for every glyph map) is false. -/
theorem packFont_offset_truncation_cx :
    (66, cxMatrixB) ∈ cxMap ∧ (1 ≤ 17 ∧ 17 ≤ 32 ∧ 1 ≤ 16384) ∧
    List.lookup 66 (packFont 17 16384 cxMap).2 = some 0 ∧
    glyphInk cxMatrixB 0 0 = true ∧
    Nat.testBit ((packFont 17 16384 cxMap).1.getD ((0 : Nat) >>> 2 + 0) 0)
      (((0 : Nat) &&& 3) * 8 + 0) = false := by
  obtain ⟨hdata, hcm⟩ := cxMap_packFont_eval
  refine ⟨List.Mem.tail _ (List.Mem.head _), by norm_num, ?_, by decide, ?_⟩
  · rw [hcm]
    rfl
  · rw [hdata,
      show (0 : Nat) >>> 2 + 0 = 0 from by decide,
      show ((0 : Nat) &&& 3) * 8 + 0 = 0 from by decide,
      getD_set_ne (show (16384 : Nat) ≠ 0 from by norm_num), getD_replicate]
    exact Nat.zero_testBit 0

/-! ## Remaining witnesses -/

theorem missing_rune_fallback_advance_witness :
    List.lookup 66 [(65, 2)] = none ∧
    ((drawRune ([true].foldl setVariableWidth
        (newPixFont 8 4 [(65, 2)] [1, 2, 3, 4])) 0 0 66 5).2.1 = false ∧
      (drawRune ([true].foldl setVariableWidth
        (newPixFont 8 4 [(65, 2)] [1, 2, 3, 4])) 0 0 66 5).2.2.2 = [] ∧
      (drawRune ([true].foldl setVariableWidth
        (newPixFont 8 4 [(65, 2)] [1, 2, 3, 4])) 0 0 66 5).2.2.1 =
        (if [true].getLast? = some true then max 3 (8 / 3) else 8) ∧
      (measureRune ([true].foldl setVariableWidth
        (newPixFont 8 4 [(65, 2)] [1, 2, 3, 4])) 66).2.1 = false ∧
      (measureRune ([true].foldl setVariableWidth
        (newPixFont 8 4 [(65, 2)] [1, 2, 3, 4])) 66).2.2 =
        (if [true].getLast? = some true then max 3 (8 / 3) else 8)) :=
  ⟨by decide,
    missing_rune_fallback_advance 8 4 [(65, 2)] [1, 2, 3, 4] [true] 66 0 0 5 (by decide)⟩

/-- Width-3 font with one glyph, for the C10 witness. -/
def cw3Font : PixFont := newPixFont 3 1 [(65, 0)] [5]

theorem width3_variable_mode_collapse_witness :
    cw3Font.charWidth = 3 ∧
    setVariableWidth cw3Font true = setVariableWidth cw3Font false ∧
    (drawRune (setVariableWidth cw3Font true) 0 0 65 0).2.2.1 = cw3Font.charWidth ∧
    (measureRune (setVariableWidth cw3Font true) 66).2.2 = cw3Font.charWidth :=
  ⟨rfl, (width3_variable_mode_collapse cw3Font rfl).1,
    (width3_variable_mode_collapse cw3Font rfl).2.1 0 0 65 0,
    (width3_variable_mode_collapse cw3Font rfl).2.2 66⟩
